import Mathlib

/-!
Shallow embedding of the iputils Go library (src/iputils.go).

Addresses are modelled as lists of natural numbers, each element standing
for one Go byte (hence the side condition `okBytes`, each element below
256).  Go's in-place mutation of an `net.IP` buffer is modelled by
returning the new buffer value; a Go function returning `(T, error)` is
modelled as a pair whose second component is `none` exactly when the Go
error is nil.
-/

namespace IPUtils

/-- Elements of an address buffer are Go bytes: naturals below 256. -/
def okBytes (l : List Nat) : Prop := ∀ b ∈ l, b < 256

instance (l : List Nat) : Decidable (okBytes l) :=
  List.decidableBAll _ l

/-- `MaxIPv4` from the source: maximal possible IPv4 address. -/
def MaxIPv4 : List Nat := [255, 255, 255, 255]

/-- `MaxIPv4In6` from the source: maximal IPv4 address in IPv6 form. -/
def MaxIPv4In6 : List Nat :=
  [0, 0, 0, 0, 0, 0, 0, 0, 0, 0, 255, 255, 255, 255, 255, 255]

/-- `MaxIPv6` from the source: maximal possible IPv6 address. -/
def MaxIPv6 : List Nat := List.replicate 16 255

/-- `CopyIP` from the source.  In the value semantics of lists the copy
is the same value; the Go function allocates a fresh buffer. -/
def CopyIP (ip : List Nat) : List Nat := ip

/-- The increment loop of `Next`, acting on the REVERSED buffer: the Go
loop walks from the last byte towards the first, replacing each visited
byte `b` by `b+1` wrapped at 256, and stops at the first byte whose new
value is positive (no overflow). -/
def incBytesRev : List Nat → List Nat
  | [] => []
  | b :: rest =>
    let b1 := (b + 1) % 256
    if 0 < b1 then b1 :: rest else b1 :: incBytesRev rest

/-- The in-place increment of `Next`, as a function on the buffer value. -/
def incBytes (ip : List Nat) : List Nat :=
  (incBytesRev ip.reverse).reverse

/-- `Next` from the source: refuses to advance past the known maxima of
widths 4 and 16, otherwise increments the buffer as a big-endian
integer.  Returns the new buffer value and the Go boolean result. -/
def Next (ip : List Nat) : List Nat × Bool :=
  if ip.length = 4 ∧ ip = MaxIPv4 then (ip, false)
  else if ip.length = 16 ∧ (ip = MaxIPv4In6 ∨ ip = MaxIPv6) then (ip, false)
  else (incBytes ip, true)

/-- `net.IPNet` as consumed by `GetNetworkIPRange`: an address and a
mask. -/
structure IPNet where
  IP : List Nat
  Mask : List Nat

/-- `GetNetworkIPRange` from the source: byte-wise `ip AND mask` and
`ip OR (NOT mask)`; Go's `^m` on a byte is `m ^^^ 255`. -/
def GetNetworkIPRange (n : IPNet) : List Nat × List Nat :=
  (List.zipWith (fun a m => a &&& m) n.IP n.Mask,
   List.zipWith (fun a m => a ||| (m ^^^ 255)) n.IP n.Mask)

/-- `bytes.Compare`: three-way lexicographic comparison. -/
def bytesCompare : List Nat → List Nat → Int
  | [], [] => 0
  | [], _ :: _ => -1
  | _ :: _, [] => 1
  | a :: as, b :: bs =>
    if a < b then -1 else if b < a then 1 else bytesCompare as bs

/-- The error message of `CompareIPs` (the Go message also interpolates
the two addresses; the text is immaterial to the claims). -/
def sizeMismatchMsg : String := "IP addresses have different sizes"

/-- `CompareIPs` from the source: Go returns `(0, err)` on a length
mismatch and `(bytes.Compare(a,b), nil)` otherwise; the second component
is `none` exactly when the Go error is nil. -/
def CompareIPs (a b : List Nat) : Int × Option String :=
  if a.length ≠ b.length then (0, some sizeMismatchMsg)
  else (bytesCompare a b, none)

/-- The `ipRangeIterator` struct from the source. -/
structure ipRangeIterator where
  first : List Nat
  last : List Nat
  next : List Nat

/-- `GetIPRangeIterator` from the source: seeds the cursor with a copy
of `first`. -/
def GetIPRangeIterator (first last : List Nat) : ipRangeIterator :=
  ⟨first, last, CopyIP first⟩

/-- `ipRangeIterator.Next` from the source: captures the cursor, emits
it with `true` and advances (via `Next`, whose boolean result is
ignored) while `cursor ≤ last`; otherwise emits it with `false` and
leaves the state untouched.  Returned as (emitted pair, new state). -/
def iterNext (iter : ipRangeIterator) : (List Nat × Bool) × ipRangeIterator :=
  let result := CopyIP iter.next
  let c := CompareIPs iter.next iter.last
  if c.2 = none ∧ c.1 ≤ 0 then
    ((result, true), { iter with next := (Next iter.next).1 })
  else
    ((result, false), iter)

/-- The list of the first `n` results of successive `Next` calls on the
iterator. -/
def iterTrace : ipRangeIterator → Nat → List (List Nat × Bool)
  | _, 0 => []
  | s, n + 1 => (iterNext s).1 :: iterTrace (iterNext s).2 n

/-- Little-endian unsigned reading of a byte list. -/
def leVal : List Nat → Nat
  | [] => 0
  | b :: rest => b + 256 * leVal rest

/-- Big-endian unsigned reading of a byte list (the integer value of an
address buffer). -/
def beVal : List Nat → Nat
  | [] => 0
  | b :: rest => b * 256 ^ rest.length + beVal rest

/-! ### Helper lemmas about the increment loop -/

theorem incBytesRev_length (l : List Nat) : (incBytesRev l).length = l.length := by
  induction l with
  | nil => rfl
  | cons b rest ih =>
    simp only [incBytesRev]
    split <;> simp [ih]

theorem incBytes_length (ip : List Nat) : (incBytes ip).length = ip.length := by
  simp [incBytes, incBytesRev_length]

theorem okBytes_incBytesRev (l : List Nat) (h : okBytes l) :
    okBytes (incBytesRev l) := by
  induction l with
  | nil => exact h
  | cons b rest ih =>
    have hrest : okBytes rest := fun x hx => h x (List.mem_cons_of_mem _ hx)
    simp only [incBytesRev]
    split
    · intro x hx
      rcases List.mem_cons.mp hx with hx | hx
      · subst hx; exact Nat.mod_lt _ (by norm_num)
      · exact hrest x hx
    · intro x hx
      rcases List.mem_cons.mp hx with hx | hx
      · subst hx; exact Nat.mod_lt _ (by norm_num)
      · exact ih hrest x hx

theorem okBytes_incBytes (l : List Nat) (h : okBytes l) :
    okBytes (incBytes l) := by
  intro x hx
  have hrev : okBytes l.reverse := fun y hy => h y (List.mem_reverse.mp hy)
  exact okBytes_incBytesRev l.reverse hrev x (List.mem_reverse.mp hx)

theorem leVal_incBytesRev (l : List Nat) (h : okBytes l)
    (hne : ∃ b ∈ l, b ≠ 255) : leVal (incBytesRev l) = leVal l + 1 := by
  induction l with
  | nil => simp at hne
  | cons b rest ih =>
    have hb : b < 256 := h b (List.mem_cons_self b rest)
    have hrest : okBytes rest := fun x hx => h x (List.mem_cons_of_mem _ hx)
    by_cases hb255 : b = 255
    · subst hb255
      have hr : ∃ x ∈ rest, x ≠ 255 := by
        rcases hne with ⟨x, hx, hxne⟩
        rcases List.mem_cons.mp hx with rfl | hx
        · exact absurd rfl hxne
        · exact ⟨x, hx, hxne⟩
      have h0 : (255 + 1) % 256 = 0 := by norm_num
      simp only [incBytesRev, h0, Nat.lt_irrefl, if_false, leVal]
      rw [ih hrest hr]
      ring
    · have hlt : b + 1 < 256 := by omega
      have h1 : (b + 1) % 256 = b + 1 := Nat.mod_eq_of_lt hlt
      simp only [incBytesRev, h1, Nat.succ_pos, if_true, leVal]
      ring

theorem leVal_append_one (xs : List Nat) (b : Nat) :
    leVal (xs ++ [b]) = leVal xs + b * 256 ^ xs.length := by
  induction xs with
  | nil => simp [leVal]
  | cons x xs ih =>
    simp only [List.cons_append, leVal, List.length_cons, List.append_eq]
    rw [ih]
    ring

theorem beVal_eq_leVal_reverse (l : List Nat) : beVal l = leVal l.reverse := by
  induction l with
  | nil => rfl
  | cons b rest ih =>
    simp only [beVal, List.reverse_cons, leVal_append_one, ih,
      List.length_reverse]
    ring

theorem exists_ne_of_ne_replicate (l : List Nat)
    (hne : l ≠ List.replicate l.length 255) : ∃ b ∈ l, b ≠ 255 := by
  by_contra hall
  push_neg at hall
  exact hne (List.eq_replicate_iff.mpr ⟨rfl, hall⟩)

theorem beVal_incBytes (l : List Nat) (h : okBytes l)
    (hne : l ≠ List.replicate l.length 255) :
    beVal (incBytes l) = beVal l + 1 := by
  have hrev : okBytes l.reverse := fun x hx => h x (List.mem_reverse.mp hx)
  have hex : ∃ b ∈ l.reverse, b ≠ 255 := by
    rcases exists_ne_of_ne_replicate l hne with ⟨b, hb, hbne⟩
    exact ⟨b, List.mem_reverse.mpr hb, hbne⟩
  rw [incBytes, beVal_eq_leVal_reverse, List.reverse_reverse,
    leVal_incBytesRev l.reverse hrev hex, beVal_eq_leVal_reverse]

theorem beVal_lt_pow (l : List Nat) (h : okBytes l) :
    beVal l < 256 ^ l.length := by
  induction l with
  | nil => simp [beVal]
  | cons b rest ih =>
    have hb : b < 256 := h b (List.mem_cons_self b rest)
    have hrest : okBytes rest := fun x hx => h x (List.mem_cons_of_mem _ hx)
    have hr := ih hrest
    have h1 : beVal (b :: rest) < (b + 1) * 256 ^ rest.length := by
      have : (b + 1) * 256 ^ rest.length
          = b * 256 ^ rest.length + 256 ^ rest.length := by ring
      simp only [beVal]
      omega
    have h2 : (b + 1) * 256 ^ rest.length ≤ 256 * 256 ^ rest.length :=
      Nat.mul_le_mul_right _ hb
    have h3 : 256 * 256 ^ rest.length = 256 ^ (b :: rest).length := by
      simp [List.length_cons, pow_succ]
      ring
    omega

/-! ### Helper lemmas about three-way comparison -/

theorem bytesCompare_self (a : List Nat) : bytesCompare a a = 0 := by
  induction a with
  | nil => rfl
  | cons x xs ih => simp [bytesCompare, ih]

theorem bytesCompare_trichotomy (a b : List Nat) :
    bytesCompare a b = -1 ∨ bytesCompare a b = 0 ∨ bytesCompare a b = 1 := by
  induction a generalizing b with
  | nil => cases b <;> simp [bytesCompare]
  | cons x xs ih =>
    cases b with
    | nil => simp [bytesCompare]
    | cons y ys =>
      by_cases h1 : x < y
      · simp [bytesCompare, h1]
      · by_cases h2 : y < x
        · simp [bytesCompare, h1, h2]
        · simpa [bytesCompare, h1, h2] using ih ys

theorem bytesCompare_swap (a b : List Nat) :
    bytesCompare b a = -bytesCompare a b := by
  induction a generalizing b with
  | nil => cases b <;> simp [bytesCompare]
  | cons x xs ih =>
    cases b with
    | nil => simp [bytesCompare]
    | cons y ys =>
      by_cases h1 : x < y
      · have h2 : ¬ y < x := by omega
        simp [bytesCompare, h1, h2]
      · by_cases h2 : y < x
        · simp [bytesCompare, h1, h2]
        · simpa [bytesCompare, h1, h2] using ih ys

theorem bytesCompare_eq_zero_iff (a b : List Nat) :
    bytesCompare a b = 0 ↔ a = b := by
  induction a generalizing b with
  | nil => cases b <;> simp [bytesCompare]
  | cons x xs ih =>
    cases b with
    | nil => simp [bytesCompare]
    | cons y ys =>
      by_cases h1 : x < y
      · have hx : x ≠ y := Nat.ne_of_lt h1
        simp [bytesCompare, h1, hx]
      · by_cases h2 : y < x
        · have hx : x ≠ y := (Nat.ne_of_lt h2).symm
          simp [bytesCompare, h1, h2, hx]
        · have hx : x = y := Nat.le_antisymm (Nat.not_lt.mp h2) (Nat.not_lt.mp h1)
          subst hx
          simpa [bytesCompare, h1, h2] using ih ys

theorem bytesCompare_neg_iff (a : List Nat) :
    ∀ b : List Nat, a.length = b.length → okBytes a → okBytes b →
      (bytesCompare a b = -1 ↔ beVal a < beVal b) := by
  induction a with
  | nil =>
    intro b hlen _ _
    cases b with
    | nil => simp [bytesCompare, beVal]
    | cons y ys => simp at hlen
  | cons x xs ih =>
    intro b hlen ha hb
    cases b with
    | nil => simp at hlen
    | cons y ys =>
      have hlen2 : xs.length = ys.length := by simpa using hlen
      have hxs : okBytes xs := fun z hz => ha z (List.mem_cons_of_mem _ hz)
      have hys : okBytes ys := fun z hz => hb z (List.mem_cons_of_mem _ hz)
      have hxsv := beVal_lt_pow xs hxs
      have hysv := beVal_lt_pow ys hys
      by_cases h1 : x < y
      · simp only [bytesCompare, if_pos h1, true_iff]
        show x * 256 ^ xs.length + beVal xs < y * 256 ^ ys.length + beVal ys
        have step2 : (x + 1) * 256 ^ xs.length ≤ y * 256 ^ xs.length :=
          Nat.mul_le_mul_right _ h1
        have hx1 : (x + 1) * 256 ^ xs.length
            = x * 256 ^ xs.length + 256 ^ xs.length := by ring
        rw [← hlen2]
        omega
      · by_cases h2 : y < x
        · have hba : y * 256 ^ ys.length + beVal ys
              < x * 256 ^ xs.length + beVal xs := by
            have step2 : (y + 1) * 256 ^ ys.length ≤ x * 256 ^ ys.length :=
              Nat.mul_le_mul_right _ h2
            have hy1 : (y + 1) * 256 ^ ys.length
                = y * 256 ^ ys.length + 256 ^ ys.length := by ring
            rw [hlen2]
            omega
          simp only [bytesCompare, if_neg h1, if_pos h2]
          constructor
          · intro habs; exact absurd habs (by decide)
          · intro hlt
            exact absurd hlt (by simp only [beVal]; omega)
        · have hx : x = y := Nat.le_antisymm (Nat.not_lt.mp h2) (Nat.not_lt.mp h1)
          subst hx
          simp only [bytesCompare, if_neg h1, if_neg h2]
          rw [ih ys hlen2 hxs hys]
          show beVal xs < beVal ys ↔
            x * 256 ^ xs.length + beVal xs < x * 256 ^ ys.length + beVal ys
          rw [hlen2]
          omega

theorem bytesCompare_pos_iff (a b : List Nat) (hlen : a.length = b.length)
    (ha : okBytes a) (hb : okBytes b) :
    (bytesCompare a b = 1 ↔ beVal b < beVal a) := by
  have hswap := bytesCompare_swap b a
  have hneg := bytesCompare_neg_iff b a hlen.symm hb ha
  constructor
  · intro h
    exact hneg.mp (by omega)
  · intro h
    have := hneg.mpr h
    omega

theorem incBytesRev_replicate (n : Nat) :
    incBytesRev (List.replicate n 255) = List.replicate n 0 := by
  induction n with
  | zero => rfl
  | succ n ih =>
    have h0 : (255 + 1) % 256 = 0 := by norm_num
    simp [List.replicate_succ, incBytesRev, h0, ih]

theorem bytesCompare_lt_iff (a b : List Nat) (hlen : a.length = b.length)
    (ha : okBytes a) (hb : okBytes b) :
    (bytesCompare a b < 0 ↔ beVal a < beVal b) := by
  rcases bytesCompare_trichotomy a b with h | h | h <;> rw [h] <;> norm_num
  · exact (bytesCompare_neg_iff a b hlen ha hb).mp h
  · rw [(bytesCompare_eq_zero_iff a b).mp h]
  · have := (bytesCompare_pos_iff a b hlen ha hb).mp h
    omega

theorem bytesCompare_zero_val_iff (a b : List Nat) (hlen : a.length = b.length)
    (ha : okBytes a) (hb : okBytes b) :
    (bytesCompare a b = 0 ↔ beVal a = beVal b) := by
  constructor
  · intro h
    rw [(bytesCompare_eq_zero_iff a b).mp h]
  · intro h
    rcases bytesCompare_trichotomy a b with h1 | h1 | h1
    · have := (bytesCompare_neg_iff a b hlen ha hb).mp h1
      omega
    · exact h1
    · have := (bytesCompare_pos_iff a b hlen ha hb).mp h1
      omega

theorem bytesCompare_gt_iff (a b : List Nat) (hlen : a.length = b.length)
    (ha : okBytes a) (hb : okBytes b) :
    (0 < bytesCompare a b ↔ beVal b < beVal a) := by
  rcases bytesCompare_trichotomy a b with h | h | h <;> rw [h] <;> norm_num
  · have := (bytesCompare_neg_iff a b hlen ha hb).mp h
    omega
  · rw [(bytesCompare_eq_zero_iff a b).mp h]
  · exact (bytesCompare_pos_iff a b hlen ha hb).mp h

theorem compareIPs_fst_eq (a b : List Nat) (hlen : a.length = b.length) :
    (CompareIPs a b).1 = bytesCompare a b := by
  simp [CompareIPs, hlen]

/-! ### Claim theorems -/

/-- Claim C1: for every 4-byte buffer that is not all-0xFF, and every
16-byte buffer that is neither all-0xFF nor the IPv4-mapped all-0xFF
form, `Next` advances the buffer to the value whose big-endian reading
is exactly one greater than the input's (keeping the width) and returns
true; for a buffer equal to one of the known maxima of its width, `Next`
returns false and leaves the buffer unchanged. -/
theorem next_increments_or_stops (ip : List Nat) (hb : okBytes ip)
    (hw : ip.length = 4 ∨ ip.length = 16) :
    ((ip ≠ MaxIPv4 ∧ ip ≠ MaxIPv4In6 ∧ ip ≠ MaxIPv6) →
       (Next ip).2 = true ∧ (Next ip).1.length = ip.length ∧
       beVal (Next ip).1 = beVal ip + 1) ∧
    ((ip = MaxIPv4 ∨ ip = MaxIPv4In6 ∨ ip = MaxIPv6) →
       Next ip = (ip, false)) := by
  constructor
  · rintro ⟨h1, h2, h3⟩
    have hcond1 : ¬(ip.length = 4 ∧ ip = MaxIPv4) := fun h => h1 h.2
    have hcond2 : ¬(ip.length = 16 ∧ (ip = MaxIPv4In6 ∨ ip = MaxIPv6)) := by
      rintro ⟨_, h | h⟩
      exacts [h2 h, h3 h]
    rw [Next, if_neg hcond1, if_neg hcond2]
    refine ⟨rfl, incBytes_length ip, ?_⟩
    apply beVal_incBytes ip hb
    rcases hw with hw | hw
    · rw [hw]
      intro hrep
      exact h1 (hrep.trans (by decide))
    · rw [hw]
      intro hrep
      exact h3 hrep
  · rintro (h | h | h) <;> subst h <;> decide

/-- Witness for C1: `Next` on 192.168.0.1 increments the big-endian
value, and on 255.255.255.255 it refuses and leaves the buffer as is. -/
theorem next_increments_or_stops_w :
    ((Next [192, 168, 0, 1]).2 = true ∧
      beVal (Next [192, 168, 0, 1]).1 = beVal [192, 168, 0, 1] + 1) ∧
    Next MaxIPv4 = (MaxIPv4, false) := by
  refine ⟨?_, ?_⟩
  · have h := (next_increments_or_stops [192, 168, 0, 1] (by decide)
      (Or.inl (by decide))).1 (by refine ⟨?_, ?_, ?_⟩ <;> decide)
    exact ⟨h.1, h.2.2⟩
  · exact (next_increments_or_stops MaxIPv4 (by decide)
      (Or.inl (by decide))).2 (Or.inl rfl)

/-- Claim C4: for equal-width addresses, `CompareIPs` returns a
three-way result matching unsigned big-endian integer ordering, with
reflexivity giving 0, antisymmetry of signs, and transitivity. -/
theorem compareIPs_total_order (a b c : List Nat)
    (hab : a.length = b.length) (hac : a.length = c.length)
    (ha : okBytes a) (hb : okBytes b) (hc : okBytes c) :
    CompareIPs a a = (0, none) ∧
    ((CompareIPs a b).1 < 0 ↔ beVal a < beVal b) ∧
    ((CompareIPs a b).1 = 0 ↔ beVal a = beVal b) ∧
    (0 < (CompareIPs a b).1 ↔ beVal b < beVal a) ∧
    (CompareIPs b a).1 = -(CompareIPs a b).1 ∧
    ((CompareIPs a b).1 < 0 → (CompareIPs b c).1 < 0 →
      (CompareIPs a c).1 < 0) := by
  have hbc : b.length = c.length := hab.symm.trans hac
  rw [compareIPs_fst_eq a b hab, compareIPs_fst_eq b a hab.symm,
    compareIPs_fst_eq a c hac, compareIPs_fst_eq b c hbc]
  refine ⟨?_, ?_, ?_, ?_, ?_, ?_⟩
  · simp [CompareIPs, bytesCompare_self]
  · exact bytesCompare_lt_iff a b hab ha hb
  · exact bytesCompare_zero_val_iff a b hab ha hb
  · exact bytesCompare_gt_iff a b hab ha hb
  · exact bytesCompare_swap a b
  · intro h1 h2
    have v1 := (bytesCompare_lt_iff a b hab ha hb).mp h1
    have v2 := (bytesCompare_lt_iff b c hbc hb hc).mp h2
    exact (bytesCompare_lt_iff a c hac ha hc).mpr (v1.trans v2)

/-- Witness for C4, at 192.168.0.0 / 192.168.0.1 / 192.168.0.2. -/
theorem compareIPs_total_order_w :
    CompareIPs [192, 168, 0, 0] [192, 168, 0, 0] = (0, none) ∧
    ((CompareIPs [192, 168, 0, 0] [192, 168, 0, 1]).1 < 0 ↔
      beVal [192, 168, 0, 0] < beVal [192, 168, 0, 1]) := by
  have h := compareIPs_total_order [192, 168, 0, 0] [192, 168, 0, 1]
    [192, 168, 0, 2] (by decide) (by decide) (by decide) (by decide) (by decide)
  exact ⟨h.1, h.2.1⟩

/-- Claim C5: `CompareIPs` reports an error exactly when the two buffers
have different lengths, and in the error case it performs no comparison:
the numeric component is the constant 0 with the size-mismatch error. -/
theorem compareIPs_error_iff (a b : List Nat) :
    ((CompareIPs a b).2 ≠ none ↔ a.length ≠ b.length) ∧
    (a.length ≠ b.length → CompareIPs a b = (0, some sizeMismatchMsg)) := by
  constructor
  · by_cases h : a.length = b.length <;> simp [CompareIPs, h]
  · intro h
    simp [CompareIPs, h]

/-- Witness for C5: comparing a 1-byte and a 2-byte buffer errors with
the constant numeric component 0. -/
theorem compareIPs_error_iff_w :
    CompareIPs [7] [7, 7] = (0, some sizeMismatchMsg) :=
  (compareIPs_error_iff [7] [7, 7]).2 (by decide)

/-- Claim C8: for a width that is neither 4 nor 16 bytes, `Next`
performs no maximum check: on an all-0xFF buffer the carry wraps every
byte to zero and the call reports success. -/
theorem next_unrecognized_width_wraps (w : Nat) (h4 : w ≠ 4) (h16 : w ≠ 16) :
    Next (List.replicate w 255) = (List.replicate w 0, true) := by
  have hlen : (List.replicate w 255).length = w := List.length_replicate w 255
  have hc1 : ¬((List.replicate w 255).length = 4 ∧
      List.replicate w 255 = MaxIPv4) := by
    rintro ⟨hl, _⟩
    rw [hlen] at hl
    exact h4 hl
  have hc2 : ¬((List.replicate w 255).length = 16 ∧
      (List.replicate w 255 = MaxIPv4In6 ∨ List.replicate w 255 = MaxIPv6)) := by
    rintro ⟨hl, _⟩
    rw [hlen] at hl
    exact h16 hl
  rw [Next, if_neg hc1, if_neg hc2, incBytes, List.reverse_replicate,
    incBytesRev_replicate, List.reverse_replicate]

/-- Witness for C8 at width 5. -/
theorem next_unrecognized_width_wraps_w :
    (5 ≠ 4 ∧ 5 ≠ 16) ∧
    Next (List.replicate 5 255) = (List.replicate 5 0, true) :=
  ⟨by decide, next_unrecognized_width_wraps 5 (by decide) (by decide)⟩

/-- Claim C10: a successful `CompareIPs` result is exactly one of -1, 0,
or +1. -/
theorem compareIPs_result_range (a b : List Nat)
    (h : (CompareIPs a b).2 = none) :
    (CompareIPs a b).1 = -1 ∨ (CompareIPs a b).1 = 0 ∨
      (CompareIPs a b).1 = 1 := by
  by_cases hl : a.length = b.length
  · rw [compareIPs_fst_eq a b hl]
    exact bytesCompare_trichotomy a b
  · exfalso
    simp [CompareIPs, hl] at h

/-- Witness for C10 at a pair of distinct 2-byte buffers. -/
theorem compareIPs_result_range_w :
    (CompareIPs [1, 2] [3, 4]).2 = none ∧
    ((CompareIPs [1, 2] [3, 4]).1 = -1 ∨ (CompareIPs [1, 2] [3, 4]).1 = 0 ∨
      (CompareIPs [1, 2] [3, 4]).1 = 1) :=
  ⟨by decide, compareIPs_result_range [1, 2] [3, 4] (by decide)⟩

theorem zipWith_le_pointwise (f g : Nat → Nat → Nat)
    (hfg : ∀ a m, f a m ≤ g a m) (as bs : List Nat) (i : Nat) (x y : Nat)
    (hx : (List.zipWith f as bs)[i]? = some x)
    (hy : (List.zipWith g as bs)[i]? = some y) : x ≤ y := by
  rw [List.getElem?_zipWith'] at hx hy
  cases has : as[i]? with
  | none => rw [has] at hx; simp at hx
  | some a =>
    cases hbs : bs[i]? with
    | none => rw [has, hbs] at hx; simp at hx
    | some m =>
      rw [has, hbs] at hx hy
      simp at hx hy
      rw [← hx, ← hy]
      exact hfg a m

/-- Claim C6: for a network whose address and mask have equal width,
`GetNetworkIPRange` returns buffers of that width with, at every
position, `first[i] = address[i] AND mask[i]` and
`last[i] = address[i] OR (NOT mask[i])` (byte complement is XOR with
255).  The Go function builds both results in fresh buffers and reads
but never writes its inputs; in this value-level model the inputs are
untouched by construction. -/
theorem getNetworkIPRange_bytes (n : IPNet) (h : n.IP.length = n.Mask.length) :
    (GetNetworkIPRange n).1.length = n.IP.length ∧
    (GetNetworkIPRange n).2.length = n.IP.length ∧
    ∀ (i a m : Nat), n.IP[i]? = some a → n.Mask[i]? = some m →
      (GetNetworkIPRange n).1[i]? = some (a &&& m) ∧
      (GetNetworkIPRange n).2[i]? = some (a ||| (m ^^^ 255)) := by
  refine ⟨?_, ?_, ?_⟩
  · simp [GetNetworkIPRange, h]
  · simp [GetNetworkIPRange, h]
  · intro i a m hia him
    constructor <;> simp [GetNetworkIPRange, List.getElem?_zipWith', hia, him]

/-- Witness for C6 on the network 192.168.0.1/24. -/
theorem getNetworkIPRange_bytes_w :
    (GetNetworkIPRange ⟨[192, 168, 0, 1], [255, 255, 255, 0]⟩).1[3]? =
      some (1 &&& 0) ∧
    (GetNetworkIPRange ⟨[192, 168, 0, 1], [255, 255, 255, 0]⟩).2[3]? =
      some (1 ||| (0 ^^^ 255)) :=
  (getNetworkIPRange_bytes ⟨[192, 168, 0, 1], [255, 255, 255, 0]⟩
    (by decide)).2.2 3 1 0 (by decide) (by decide)

/-- Claim C9: for every address/mask pair of equal width, each byte of
the first returned buffer is at most the corresponding byte of the last
one, even for malformed masks, since `a AND m ≤ a ≤ a OR (NOT m)`. -/
theorem getNetworkIPRange_first_le_last (n : IPNet)
    (h : n.IP.length = n.Mask.length) :
    ∀ (i x y : Nat), (GetNetworkIPRange n).1[i]? = some x →
      (GetNetworkIPRange n).2[i]? = some y → x ≤ y := by
  intro i x y hx hy
  refine zipWith_le_pointwise _ _ ?_ n.IP n.Mask i x y hx hy
  intro a m
  calc a &&& m ≤ a := Nat.and_le_left
  _ ≤ a ||| (m ^^^ 255) := Nat.le_of_testBit (by intro j hj; simp [hj])

/-- Witness for C9 on a malformed (non-contiguous) mask. -/
theorem getNetworkIPRange_first_le_last_w :
    (GetNetworkIPRange ⟨[192, 168, 0, 1], [0, 170, 85, 255]⟩).1[1]? =
      some 168 ∧
    (GetNetworkIPRange ⟨[192, 168, 0, 1], [0, 170, 85, 255]⟩).2[1]? =
      some 253 ∧
    (168 : Nat) ≤ 253 :=
  ⟨by decide, by decide,
    getNetworkIPRange_first_le_last ⟨[192, 168, 0, 1], [0, 170, 85, 255]⟩
      (by decide) 1 168 253 (by decide) (by decide)⟩

/-- Claim C7: exhaustion is terminal.  For any iterator state whose
cursor strictly exceeds the upper bound (in particular one constructed
with first > last), the retrieval returns the unchanged cursor value
with false, leaves the state untouched, and every run of n calls yields
n copies of that same result. -/
theorem iterator_exhaustion_terminal (s : ipRangeIterator)
    (hlen : s.next.length = s.last.length)
    (hgt : 0 < bytesCompare s.next s.last) :
    (iterNext s).1 = (s.next, false) ∧ (iterNext s).2 = s ∧
    ∀ n, iterTrace s n = List.replicate n (s.next, false) := by
  have hc : CompareIPs s.next s.last = (bytesCompare s.next s.last, none) := by
    simp [CompareIPs, hlen]
  have hcond : ¬((CompareIPs s.next s.last).2 = none ∧
      (CompareIPs s.next s.last).1 ≤ 0) := by
    rw [hc]
    rintro ⟨_, habs⟩
    simp at habs
    omega
  have hstep : iterNext s = ((s.next, false), s) := by
    simp only [iterNext, CopyIP]
    rw [if_neg hcond]
  refine ⟨by rw [hstep], by rw [hstep], ?_⟩
  intro n
  induction n with
  | zero => rfl
  | succ n ih =>
    simp only [iterTrace, hstep, List.replicate_succ]
    rw [ih]

/-- Witness for C7: an iterator constructed with first > last. -/
theorem iterator_exhaustion_terminal_w :
    (iterNext (GetIPRangeIterator [192, 168, 0, 20] [192, 168, 0, 10])).2 =
      GetIPRangeIterator [192, 168, 0, 20] [192, 168, 0, 10] ∧
    iterTrace (GetIPRangeIterator [192, 168, 0, 20] [192, 168, 0, 10]) 3 =
      List.replicate 3 ([192, 168, 0, 20], false) := by
  have h := iterator_exhaustion_terminal
    (GetIPRangeIterator [192, 168, 0, 20] [192, 168, 0, 10])
    (by decide) (by decide)
  exact ⟨h.2.1, h.2.2 3⟩

/-- Claim C2, evaluated at a failing input: over the two-element range
255.255.255.254 .. 255.255.255.255 the iterator first yields both range
members with true, but the call after yielding the upper bound again
returns (255.255.255.255, true) instead of reporting exhaustion: `Next`
refuses to advance past `MaxIPv4`, the iterator ignores that refusal,
and the cursor stays equal to the bound forever. -/
theorem iterator_after_max_not_exhausted :
    iterTrace (GetIPRangeIterator [255, 255, 255, 254] [255, 255, 255, 255]) 3 =
      [([255, 255, 255, 254], true), ([255, 255, 255, 255], true),
        ([255, 255, 255, 255], true)] := by decide

/-- Claim C3, evaluated at a failing input: an iterator over the
one-element range [255.255.255.255, 255.255.255.255] emits the same
logical position twice (indeed forever) with ok = true, instead of
emitting it once and then reporting exhaustion. -/
theorem iterator_max_bound_duplicates :
    iterTrace (GetIPRangeIterator [255, 255, 255, 255] [255, 255, 255, 255]) 2 =
      [([255, 255, 255, 255], true), ([255, 255, 255, 255], true)] := by decide

end IPUtils
